import Mathlib

/-!
Verification of the retrieval core of the `agentkit` repository
(`src/rag/ingest.py` and `src/rag/store.py`).

Texts are modelled as `List Char`, Python floats as `ℚ` (the score formula
`1.0 / (1.0 + distance)` and Python's `round(x, 3)` are exact on rationals),
and the ChromaDB-backed store as an explicit state record.  Whitespace is
modelled as the four ASCII whitespace characters recognised by
`Char.isWhitespace`.
-/

namespace AgentKit

/-- Whitespace for Python's `\s`, `str.strip()` and `str.split()`,
modelled as the ASCII whitespace characters. -/
def isPySpace (c : Char) : Bool :=
  c = ' ' ∨ c = '\t' ∨ c = '\n' ∨ c = '\r'

/-- Characters matched by the sentence-end set `[.!?]` in
`re.split(r"(?<=[.!?])\s+", ...)` (`ingest.py`, line 85). -/
def isSentEnd (c : Char) : Bool :=
  c = '.' ∨ c = '!' ∨ c = '?'

theorem dropWhile_length_le (p : α → Bool) (l : List α) :
    (l.dropWhile p).length ≤ l.length := by
  induction l with
  | nil => simp
  | cons a t ih =>
    by_cases h : p a
    · simpa [List.dropWhile, h] using Nat.le_succ_of_le ih
    · simp [List.dropWhile, h]

/-- Head of the reversed accumulator is a sentence-end character: the
lookbehind `(?<=[.!?])` of the sentence splitter. -/
def headIsSentEnd : List Char → Bool
  | [] => false
  | p :: _ => isSentEnd p

/-- Scanner for `re.split(r"(?<=[.!?])\s+", text)`: a split point is a
maximal whitespace run immediately preceded by `.`, `!` or `?`; the
whitespace is consumed.  `acc` holds the current segment reversed.  The
first argument is fuel (structural recursion so the kernel can
evaluate); `t.length + 1` fuel always suffices since every call
consumes at least one character. -/
def splitSentFuel : Nat → List Char → List Char → List (List Char)
  | 0, _, acc => [acc.reverse]
  | _ + 1, [], acc => [acc.reverse]
  | fuel + 1, c :: rest, acc =>
    if isPySpace c ∧ headIsSentEnd acc then
      acc.reverse :: splitSentFuel fuel (rest.dropWhile isPySpace) []
    else
      splitSentFuel fuel rest (c :: acc)

/-- Python `re.split(r"(?<=[.!?])\s+", t)`. -/
def pySentSplit (t : List Char) : List (List Char) :=
  splitSentFuel (t.length + 1) t []

/-- Python `str.strip()`: drop leading and trailing whitespace. -/
def stripChars (l : List Char) : List Char :=
  ((l.dropWhile isPySpace).reverse.dropWhile isPySpace).reverse

/-- Python `str.split()` (no argument): whitespace-run splitting with no
empty words, fuelled like `splitSentFuel`. -/
def pyWordsFuel : Nat → List Char → List (List Char)
  | 0, _ => []
  | _ + 1, [] => []
  | fuel + 1, c :: t =>
    if isPySpace c then pyWordsFuel fuel t
    else (c :: t.takeWhile (fun x => ¬ isPySpace x)) ::
         pyWordsFuel fuel (t.dropWhile (fun x => ¬ isPySpace x))

/-- Python `str.split()` (no argument). -/
def pyWords (l : List Char) : List (List Char) :=
  pyWordsFuel l.length l

/-- Python `l[-n:]` for `n ≥ 1` (the last `min n l.length` elements). -/
def takeLast (n : Nat) (l : List α) : List α :=
  l.drop (l.length - n)

/-- Python `" ".join(cur)` on a list of pieces. -/
def joinSp : List (List Char) → List Char
  | [] => []
  | [x] => x
  | x :: xs => x ++ ' ' :: joinSp xs

/-- Overlap seed computed at a chunk rollover (`ingest.py`, lines 92-94):
`" ".join(" ".join(cur).split()[-overlap:]) if overlap else ""`.
Note: this retakes the trailing `overlap` *tokens* of the joined chunk,
not its trailing `overlap` characters. -/
def overlapTokens (overlap : Nat) (cur : List (List Char)) : List Char :=
  if overlap = 0 then [] else joinSp (takeLast overlap (pyWords (joinSp cur)))

/-- Main accumulation loop of `chunk_text` (`ingest.py`, lines 88-102),
returning the list of closed accumulator (`cur`) piece-lists, final
non-empty accumulator included.  The emitted chunk strings are the
`joinSp` of these piece-lists. -/
def chunkLoop (chunkSize overlap : Nat) :
    List (List Char) → List (List Char) → Nat → List (List (List Char))
  | [], cur, _ => if cur = [] then [] else [cur]
  | s :: rest, cur, curLen =>
    if curLen + s.length > chunkSize ∧ cur ≠ [] then
      let ot := overlapTokens overlap cur
      let cur2 := if ot = [] then [s] else [ot, s]
      cur :: chunkLoop chunkSize overlap rest cur2 (joinSp cur2).length
    else
      chunkLoop chunkSize overlap rest (cur ++ [s]) (curLen + s.length)

/-- The sentence list fed to the accumulation loop:
`re.split(r"(?<=[.!?])\s+", text.strip())`. -/
def sentencesOf (text : List Char) : List (List Char) :=
  pySentSplit (stripChars text)

/-- Model of `chunk_text(text, chunk_size, overlap)` (`ingest.py`,
lines 67-105): sentence split, greedy accumulation with overlap seeding,
then `[c.strip() for c in chunks if len(c.strip()) > 30]`. -/
def chunk_text (text : List Char) (chunkSize : Nat := 900) (overlap : Nat := 150) :
    List (List Char) :=
  (((chunkLoop chunkSize overlap (sentencesOf text) [] 0).map joinSp).map
      stripChars).filter (fun c => 30 < c.length)

/-! ### Relevance scoring (`store.py`, lines 156-167) -/

/-- The relevance formula `1.0 / (1.0 + distance)` (`store.py`, line 159),
modelled over `ℚ`. -/
def score (d : ℚ) : ℚ := 1 / (1 + d)

/-- Round to the nearest integer with ties going to the even integer
(the rounding Python's `round` uses). -/
def bankerRound (q : ℚ) : ℤ :=
  if q - ⌊q⌋ < 1 / 2 then ⌊q⌋
  else if 1 / 2 < q - ⌊q⌋ then ⌊q⌋ + 1
  else if ⌊q⌋ % 2 = 0 then ⌊q⌋ else ⌊q⌋ + 1

/-- Python's `round(x, 3)` (`store.py`, line 167): round to 3 decimal
places, ties to even. -/
def pyRound3 (x : ℚ) : ℚ :=
  (bankerRound (x * 1000) : ℚ) / 1000

/-! ### Data model of the vector store (`store.py`)

Metadata is modelled by the two keys the core reads back: `doc_id`
(matched by `delete_document`) and `chunk` (written by
`build_doc_chunks`).  `writtenNs` on stored vectors and query results is
a ghost field recording the namespace of the upsert that wrote the
record; it exists only to state namespace isolation. -/

structure Meta where
  docId : Option (List Char)
  chunk : Option Nat
deriving DecidableEq

/-- A document chunk as produced by `build_doc_chunks`:
`{"id": ..., "text": ..., "metadata": ...}`. -/
structure Chunk where
  id : List Char
  text : List Char
  md : Meta
deriving DecidableEq

/-- A vector stored in a namespace's collection (id, document text,
metadata, embedding), plus the ghost provenance field. -/
structure VecRec where
  id : List Char
  text : List Char
  md : Meta
  emb : List ℚ
  writtenNs : List Char
deriving DecidableEq

/-- A formatted query result (`store.py`, lines 161-169), plus the ghost
provenance field. -/
structure QRes where
  id : List Char
  text : List Char
  md : Meta
  dist : ℚ
  relevance : ℚ
  writtenNs : List Char
deriving DecidableEq

/-- The mutable module state of `store.py`: the ChromaDB collections
(one per namespace), the `_collections` handle cache, the `_query_cache`
(a Python dict, i.e. an insertion-ordered association list), and the
cache configuration (`_cache_enabled and _config["cache_enabled"]`
collapsed into one flag, `_cache_max_size`). -/
structure StoreState where
  collections : List (List Char × List VecRec)
  handles : List (List Char)
  cache : List (List Char × List QRes)
  cacheEnabled : Bool
  cacheMax : Nat
deriving DecidableEq

/-- Fresh module state (empty client, no handles, empty cache). -/
def initState (maxSize : Nat) (enabled : Bool) : StoreState :=
  ⟨[], [], [], enabled, maxSize⟩

/-- Lookup in an insertion-ordered dict. -/
def dictGet? [DecidableEq K] (k : K) (d : List (K × V)) : Option V :=
  (d.find? (fun p => p.1 = k)).map (fun p => p.2)

/-- Python dict assignment `d[k] = v`: update in place if the key is
present, otherwise append at the end. -/
def dictInsert [DecidableEq K] (k : K) (v : V) : List (K × V) → List (K × V)
  | [] => [(k, v)]
  | p :: t => if p.1 = k then (k, v) :: t else p :: dictInsert k v t

/-- The records of namespace `ns` (empty when no collection exists). -/
def colRecs (ns : List Char) (st : StoreState) : List VecRec :=
  (dictGet? ns st.collections).getD []

/-- Does a backing collection for `ns` exist? -/
def hasCol (ns : List Char) (st : StoreState) : Bool :=
  st.collections.any (fun p => p.1 = ns)

/-- Replace the record list of an existing collection `ns`. -/
def setCol (ns : List Char) (v : List VecRec) (st : StoreState) : StoreState :=
  { st with collections := st.collections.map (fun p => if p.1 = ns then (ns, v) else p) }

/-- Model of `get_collection(namespace)` (`store.py`, lines 66-74): use
the cached handle if present; otherwise fetch the existing collection or
create an empty one, caching the handle either way. -/
def get_collection (ns : List Char) (st : StoreState) : StoreState :=
  if ns ∈ st.handles then st
  else if hasCol ns st then { st with handles := ns :: st.handles }
  else { st with collections := st.collections ++ [(ns, [])], handles := ns :: st.handles }

/-- The stored vector built from a chunk by `upsert_chunks`: text is
embedded by `E` (the sentence-transformer `model.encode`). -/
def chunkRec (E : List Char → List ℚ) (ns : List Char) (c : Chunk) : VecRec :=
  ⟨c.id, c.text, c.md, E c.text, ns⟩

/-- ChromaDB `collection.upsert` for a single record: overwrite in place
when the id is already stored, otherwise append. -/
def upsertRec (r : VecRec) : List VecRec → List VecRec
  | [] => [r]
  | x :: t => if x.id = r.id then r :: t else x :: upsertRec r t

/-- Model of `upsert_chunks(namespace, chunks)` (`store.py`, lines
77-93): no-op on empty input, else embed every chunk text and upsert
keyed by chunk id. -/
def upsert_chunks (E : List Char → List ℚ) (ns : List Char) (chunks : List Chunk)
    (st : StoreState) : StoreState :=
  if chunks = [] then st
  else
    setCol ns
      ((chunks.map (chunkRec E ns)).foldl (fun acc r => upsertRec r acc)
        (colRecs ns (get_collection ns st)))
      (get_collection ns st)

/-- Model of `_get_cache_key` (`store.py`, lines 96-99):
`md5(f"{namespace}:{query_text}:{k}")`.  The md5 digest is modelled as
injective, i.e. the key is the digested string itself; the colon-joined
collisions exhibited below happen before hashing and so are collisions
of the real keys as well. -/
def cacheKey (ns qt : List Char) (k : Nat) : List Char :=
  ns ++ ':' :: qt ++ ':' :: (toString k).toList

/-- Model of `_get_cached_result` (`store.py`, lines 102-112). -/
def getCachedResult (key : List Char) (st : StoreState) : Option (List QRes) :=
  if st.cacheEnabled then dictGet? key st.cache else none

/-- Model of `_cache_result` (`store.py`, lines 115-128): when the cache
is full, delete the first (oldest-inserted) entry, then insert. -/
def cacheResult (key : List Char) (res : List QRes) (st : StoreState) : StoreState :=
  if st.cacheEnabled then
    { st with cache := dictInsert key res (if st.cacheMax ≤ st.cache.length then st.cache.drop 1 else st.cache) }
  else st

/-- Squared L2 distance, ChromaDB's default metric. -/
def sqDist (u v : List ℚ) : ℚ :=
  ((u.zip v).map (fun p => (p.1 - p.2) ^ 2)).sum

/-- Insert a (record, distance) pair into a distance-sorted list,
keeping earlier records first on ties. -/
def insertByDist (p : VecRec × ℚ) : List (VecRec × ℚ) → List (VecRec × ℚ)
  | [] => [p]
  | q :: t => if p.2 < q.2 then p :: q :: t else q :: insertByDist p t

/-- Stable sort by distance: the nearest-neighbour order of
`collection.query`. -/
def sortByDist : List (VecRec × ℚ) → List (VecRec × ℚ)
  | [] => []
  | p :: t => insertByDist p (sortByDist t)

/-- The result-formatting loop of `query` (`store.py`, lines 148-169):
nearest-neighbour search over the collection's records followed by
decoration with metadata, distance and rounded relevance score. -/
def freshOut (recs : List VecRec) (qemb : List ℚ) (k : Nat) : List QRes :=
  ((sortByDist (recs.map (fun r => (r, sqDist r.emb qemb)))).take k).map (fun p =>
    ⟨p.1.id, p.1.text, p.1.md, p.2, pyRound3 (score p.2), p.1.writtenNs⟩)

/-- Model of `query(namespace, query_text, k, use_cache)` (`store.py`,
lines 131-178).  `E` is the fallible embedding step: an `error` models
the exceptions caught by the `try`/`except` (embedding or index
failure), which degrade the call to an empty result.  On a cache hit the
cached list is returned unchanged. -/
def query (E : List Char → Except (List Char) (List ℚ)) (ns qt : List Char)
    (k : Nat) (useCache : Bool) (st : StoreState) : List QRes × StoreState :=
  match (if useCache then getCachedResult (cacheKey ns qt k) st else none) with
  | some res => (res, st)
  | none =>
    match E qt with
    | .error _ => ([], get_collection ns st)
    | .ok qemb =>
      (freshOut (colRecs ns (get_collection ns st)) qemb k,
       if useCache then
         cacheResult (cacheKey ns qt k)
           (freshOut (colRecs ns (get_collection ns st)) qemb k)
           (get_collection ns st)
       else get_collection ns st)

/-- The ids collected by the `delete_document` scan: ids of the records
whose `metadata["doc_id"]` matches. -/
def docDelIds (docId : List Char) (recs : List VecRec) : List (List Char) :=
  (recs.filter (fun r => r.md.docId = some docId)).map (fun r => r.id)

/-- Model of `delete_document(namespace, doc_id)` (`store.py`, lines
181-201): collect the ids of all records whose `metadata["doc_id"]`
matches, delete them, and return how many; with no match return 0 and
delete nothing. -/
def delete_document (ns docId : List Char) (st : StoreState) : Nat × StoreState :=
  if docDelIds docId (colRecs ns (get_collection ns st)) = [] then
    (0, get_collection ns st)
  else
    ((docDelIds docId (colRecs ns (get_collection ns st))).length,
     setCol ns
       ((colRecs ns (get_collection ns st)).filter
         (fun r => r.id ∉ docDelIds docId (colRecs ns (get_collection ns st))))
       (get_collection ns st))

/-- Model of `delete_namespace(namespace)` (`store.py`, lines 204-212).
`deleteOk` is the outcome of the external `client.delete_collection`
call (ChromaDB raises when the collection is absent, and may raise on
storage errors).  On success the collection and, after it, the cached
handle are removed; on failure the exception is caught, logged, and
nothing at all changes — in particular the handle removal is skipped
because it sits after the raising call inside the `try`. -/
def delete_namespace (deleteOk : Bool) (ns : List Char) (st : StoreState) : StoreState :=
  if deleteOk then
    { st with collections := st.collections.filter (fun p => p.1 ≠ ns),
              handles := st.handles.filter (fun h => h ≠ ns) }
  else st

/-- Python's `metadata.get("doc_id") or str(uuid.uuid4())` (`ingest.py`,
line 123): `or` falls back on any *falsy* left operand, so an
empty-string `doc_id` is replaced by a fresh uuid exactly like an absent
one.  `freshId` models the `str(uuid.uuid4())` drawn by this call. -/
def pyDocIdOr (docId : Option (List Char)) (freshId : List Char) : List Char :=
  match docId with
  | some d => if d = [] then freshId else d
  | none => freshId

/-- Model of `build_doc_chunks` (`ingest.py`, lines 108-131): chunk the
extracted text and attach ids `f"{doc_id}-{i}"` — where `doc_id` is the
caller's doc_id if truthy, else a per-call fresh uuid — and metadata
`{**metadata, "chunk": i}`. -/
def build_doc_chunks (text : List Char) (md : Meta) (freshId : List Char)
    (chunkSize : Nat := 900) (overlap : Nat := 150) : List Chunk :=
  (chunk_text text chunkSize overlap).enum.map (fun p =>
    ⟨pyDocIdOr md.docId freshId ++ '-' :: (toString p.1).toList, p.2,
      { md with chunk := some p.1 }⟩)

/-! ### Operation traces over the store -/

/-- The store operations invoked by callers of `rag.store`. -/
inductive Op where
  | upsert (ns : List Char) (chunks : List Chunk)
  | queryOp (ns qt : List Char) (k : Nat) (useCache : Bool)
  | deleteDoc (ns docId : List Char)
  | deleteNs (ns : List Char)
deriving DecidableEq

/-- The namespace an operation addresses. -/
def opNamespace : Op → List Char
  | .upsert ns _ => ns
  | .queryOp ns _ _ _ => ns
  | .deleteDoc ns _ => ns
  | .deleteNs ns => ns

/-- One store operation, with a total embedding `E`.  `deleteNs` succeeds
exactly when the backing collection exists. -/
def step (E : List Char → List ℚ) (st : StoreState) : Op → StoreState
  | .upsert ns cs => upsert_chunks E ns cs st
  | .queryOp ns qt k uc => (query (fun t => .ok (E t)) ns qt k uc st).2
  | .deleteDoc ns d => (delete_document ns d st).2
  | .deleteNs ns => delete_namespace (hasCol ns st) ns st

/-- Run a trace of store operations. -/
def runOps (E : List Char → List ℚ) (ops : List Op) (st : StoreState) : StoreState :=
  ops.foldl (step E) st

/-! ### Helper lemmas about the chunker -/

theorem joinSp_cons_of_ne (x : List Char) (xs : List (List Char)) (h : xs ≠ []) :
    joinSp (x :: xs) = x ++ ' ' :: joinSp xs := by
  cases xs with
  | nil => exact absurd rfl h
  | cons y ys => rfl

theorem joinSp_append_single (cur : List (List Char)) (s : List Char) (h : cur ≠ []) :
    joinSp (cur ++ [s]) = joinSp cur ++ ' ' :: s := by
  induction cur with
  | nil => exact absurd rfl h
  | cons x xs ih =>
    cases xs with
    | nil => rfl
    | cons y ys =>
      rw [List.cons_append, joinSp_cons_of_ne x ((y :: ys) ++ [s]) (by simp),
        joinSp_cons_of_ne x (y :: ys) (by simp), ih (by simp)]
      simp

theorem stripChars_length_le (l : List Char) : (stripChars l).length ≤ l.length := by
  unfold stripChars
  rw [List.length_reverse]
  calc ((l.dropWhile isPySpace).reverse.dropWhile isPySpace).length
      ≤ (l.dropWhile isPySpace).reverse.length := dropWhile_length_le _ _
    _ = (l.dropWhile isPySpace).length := List.length_reverse _
    _ ≤ l.length := dropWhile_length_le _ _

/-- Loop invariant argument for the chunk-size bound: any emitted
accumulator of at least three pieces joins to at most
`chunkSize + (pieces - 1)` characters. -/
theorem chunkLoop_size_bound (chunkSize overlap : Nat) :
    ∀ (sents cur : List (List Char)) (curLen : Nat),
    (cur = [] → curLen = 0) →
    (cur ≠ [] → (joinSp cur).length ≤ curLen + (cur.length - 1)) →
    (3 ≤ cur.length → curLen ≤ chunkSize) →
    ∀ σ ∈ chunkLoop chunkSize overlap sents cur curLen,
      3 ≤ σ.length → (joinSp σ).length ≤ chunkSize + (σ.length - 1)
  | [], cur, curLen, _, h2, h3, σ, hσ, hlen => by
    unfold chunkLoop at hσ
    by_cases hc : cur = []
    · simp [hc] at hσ
    · simp only [if_neg hc, List.mem_singleton] at hσ
      subst hσ
      exact le_trans (h2 hc) (Nat.add_le_add_right (h3 hlen) _)
  | s :: rest, cur, curLen, h1, h2, h3, σ, hσ, hlen => by
    unfold chunkLoop at hσ
    by_cases hcond : curLen + s.length > chunkSize ∧ cur ≠ []
    · rw [if_pos hcond] at hσ
      rcases List.mem_cons.mp hσ with rfl | hσ
      · exact le_trans (h2 hcond.2) (Nat.add_le_add_right (h3 hlen) _)
      · set ot := overlapTokens overlap cur with hot
        set cur2 := if ot = [] then [s] else [ot, s] with hcur2
        refine chunkLoop_size_bound chunkSize overlap rest cur2 (joinSp cur2).length
          (fun he => ?_) (fun _ => ?_) (fun h3' => ?_) σ hσ hlen
        · exact absurd he (by rw [hcur2]; split <;> simp)
        · exact Nat.le_add_right _ _
        · exfalso
          have : cur2.length ≤ 2 := by rw [hcur2]; split <;> simp
          omega
    · rw [if_neg hcond] at hσ
      refine chunkLoop_size_bound chunkSize overlap rest (cur ++ [s]) (curLen + s.length)
        (by simp) (fun _ => ?_) (fun h3' => ?_) σ hσ hlen
      · by_cases hc : cur = []
        · subst hc; simp [joinSp]
        · rw [joinSp_append_single cur s hc]
          have hcl : 1 ≤ cur.length := List.length_pos.mpr hc
          have := h2 hc
          simp only [List.length_append, List.length_cons, List.length_nil]
          omega
      · rcases not_and_or.mp hcond with h | h
        · omega
        · simp only [ne_eq, not_not] at h
          subst h
          simp at h3'

/-- CLAIM C3 (corrected): every chunk of `chunk_text` arises as the
join of an emitted accumulator `σ`; whenever `σ` has at least three
pieces the chunk has length at most `chunk_size + (pieces - 1)` — one
uncounted joining space per piece boundary.  One- or two-piece
accumulators (a lone over-long sentence, or an overlap seed followed by
the sentence that triggered the rollover) may exceed `chunk_size`
without bound, and even multi-sentence chunks may exceed `chunk_size`
itself by the joining spaces, refuting the claimed bound. -/
theorem c3_chunk_size_bound (text : List Char) (chunkSize overlap : Nat)
    (c : List Char) (hc : c ∈ chunk_text text chunkSize overlap) :
    ∃ σ ∈ chunkLoop chunkSize overlap (sentencesOf text) [] 0,
      c = stripChars (joinSp σ) ∧
      (3 ≤ σ.length → c.length ≤ chunkSize + (σ.length - 1)) := by
  unfold chunk_text at hc
  rw [List.map_map, List.mem_filter, List.mem_map] at hc
  obtain ⟨⟨σ, hσ, hmap⟩, _⟩ := hc
  rw [Function.comp_apply] at hmap
  refine ⟨σ, hσ, hmap.symm, fun h3 => ?_⟩
  calc c.length = (stripChars (joinSp σ)).length := by rw [hmap]
    _ ≤ (joinSp σ).length := stripChars_length_le _
    _ ≤ chunkSize + (σ.length - 1) :=
        chunkLoop_size_bound chunkSize overlap (sentencesOf text) [] 0
          (fun _ => rfl) (fun h => absurd rfl h) (by simp) σ hσ h3

/-- CLAIM C3 (counterexample): with `chunk_size = 32` and `overlap = 0`,
a text of two sentences of 16 characters each produces a single chunk of
33 characters — it exceeds `chunk_size` although no single sentence
does, because the loop's running length ignores the joining spaces. -/
theorem c3_counterexample :
    chunk_text ("aaaaaaaaaaaaaaa. bbbbbbbbbbbbbbb.").toList 32 0 =
      [("aaaaaaaaaaaaaaa. bbbbbbbbbbbbbbb.").toList] ∧
    ("aaaaaaaaaaaaaaa. bbbbbbbbbbbbbbb.").toList.length = 33 ∧
    ∀ s ∈ sentencesOf ("aaaaaaaaaaaaaaa. bbbbbbbbbbbbbbb.").toList,
      s.length ≤ 32 := by
  refine ⟨by decide, by decide, by decide⟩

/-- Witness for `c3_chunk_size_bound`: a three-sentence text whose only
chunk comes from a three-piece accumulator and obeys the bound. -/
theorem c3_chunk_size_bound_witness :
    ∃ σ ∈ chunkLoop 100 0 (sentencesOf ("aaaaaaaaaaaaaaa. bbbbbbbbbbbbbbb. ccccccccccccccc.").toList) [] 0,
      ("aaaaaaaaaaaaaaa. bbbbbbbbbbbbbbb. ccccccccccccccc.").toList = stripChars (joinSp σ) ∧
      (3 ≤ σ.length → ("aaaaaaaaaaaaaaa. bbbbbbbbbbbbbbb. ccccccccccccccc.").toList.length ≤ 100 + (σ.length - 1)) :=
  c3_chunk_size_bound _ 100 0 _ (by decide)

/-- CLAIM C5 (corrected): empty input yields an empty chunk list, and
the output consists exactly of the stripped accumulated chunks whose
stripped length is strictly greater than 30 — so a chunk of length
exactly 30 is discarded, not kept. -/
theorem c5_filter_and_empty (chunkSize overlap : Nat) :
    chunk_text [] chunkSize overlap = [] ∧
    ∀ (text : List Char) (c : List Char),
      c ∈ chunk_text text chunkSize overlap ↔
      ∃ σ ∈ chunkLoop chunkSize overlap (sentencesOf text) [] 0,
        c = stripChars (joinSp σ) ∧ 30 < c.length := by
  constructor
  · show List.filter _ _ = []
    have h1 : sentencesOf [] = [[]] := by decide
    rw [h1]
    have h2 : chunkLoop chunkSize overlap [[]] [] 0 = [[[]]] := by
      unfold chunkLoop
      rw [if_neg (by simp)]
      unfold chunkLoop
      simp
    rw [h2]
    simp [joinSp, stripChars]
  · intro text c
    unfold chunk_text
    rw [List.map_map, List.mem_filter, List.mem_map]
    constructor
    · rintro ⟨⟨σ, hσ, hmap⟩, hlen⟩
      rw [Function.comp_apply] at hmap
      exact ⟨σ, hσ, hmap.symm, by simpa using hlen⟩
    · rintro ⟨σ, hσ, hmap, hlen⟩
      exact ⟨⟨σ, hσ, by rw [Function.comp_apply, hmap]⟩, by simpa using hlen⟩

/-- CLAIM C5 (counterexample): a single-sentence text of exactly 30
characters is accumulated as a 30-character chunk yet discarded — the
filter keeps only chunks strictly longer than 30, refuting "a chunk of
length 30 or more is kept". -/
theorem c5_counterexample :
    chunk_text ("aaaaaaaaaaaaaaaaaaaaaaaaaaaaa.").toList 900 150 = [] ∧
    (chunkLoop 900 150 (sentencesOf ("aaaaaaaaaaaaaaaaaaaaaaaaaaaaa.").toList) [] 0).map
      (fun σ => stripChars (joinSp σ)) = [("aaaaaaaaaaaaaaaaaaaaaaaaaaaaa.").toList] ∧
    ("aaaaaaaaaaaaaaaaaaaaaaaaaaaaa.").toList.length = 30 := by
  refine ⟨by decide, by decide, by decide⟩

/-! ### Claim C4: overlap seeding -/

/-- Modelled from the spec's words, for comparison with the code: "seed
the next chunk with the last `overlap` characters (word-boundary-aligned
by splitting on whitespace and retaking the trailing tokens) of the
just-closed chunk" — take the trailing `overlap` characters of the
chunk, split them on whitespace, and rejoin the resulting tokens.  The
code instead retakes the trailing `overlap` whole tokens
(`overlapTokens`), a different and typically much longer text. -/
def specSeedFromChars (overlap : Nat) (c : List Char) : List Char :=
  joinSp (pyWords (takeLast overlap c))

/-- Every accumulator emitted by `chunkLoop` extends the accumulator the
loop started from. -/
theorem chunkLoop_head_extends (chunkSize overlap : Nat) :
    ∀ (sents cur : List (List Char)) (curLen : Nat) (σ : List (List Char)),
    (chunkLoop chunkSize overlap sents cur curLen).head? = some σ →
    ∃ t, cur ++ t = σ
  | [], cur, curLen, σ, h => by
    unfold chunkLoop at h
    by_cases hc : cur = [] <;> simp [hc] at h
    exact ⟨[], by simp [h]⟩
  | s :: rest, cur, curLen, σ, h => by
    unfold chunkLoop at h
    by_cases hcond : curLen + s.length > chunkSize ∧ cur ≠ []
    · rw [if_pos hcond] at h
      simp only [List.head?_cons, Option.some.injEq] at h
      exact ⟨[], by simp [h]⟩
    · rw [if_neg hcond] at h
      obtain ⟨t, ht⟩ := chunkLoop_head_extends chunkSize overlap rest
        (cur ++ [s]) (curLen + s.length) σ h
      exact ⟨[s] ++ t, by rw [← List.append_assoc, ht]⟩

/-- Relation between consecutive emitted accumulators: the later chunk
begins with the overlap seed of the earlier one (when that seed is
non-empty) followed by one of the text's sentences — the sentence that
triggered the rollover; with an empty seed it begins with that sentence
alone. -/
def seedRel (allSents : List (List Char)) (overlap : Nat)
    (σ τ : List (List Char)) : Prop :=
  ∃ s ∈ allSents,
    (overlapTokens overlap σ = [] → τ.take 1 = [s]) ∧
    (overlapTokens overlap σ ≠ [] → τ.take 2 = [overlapTokens overlap σ, s])

/-- Chain argument: consecutive chunks emitted by `chunkLoop` are linked
by `seedRel`. -/
theorem chunkLoop_seed_chain (chunkSize overlap : Nat) (allSents : List (List Char)) :
    ∀ (sents cur : List (List Char)) (curLen : Nat),
    (∀ x ∈ sents, x ∈ allSents) →
    List.Chain' (seedRel allSents overlap)
      (chunkLoop chunkSize overlap sents cur curLen)
  | [], cur, curLen, _ => by
    unfold chunkLoop
    by_cases hc : cur = [] <;> simp [hc]
  | s :: rest, cur, curLen, hsub => by
    unfold chunkLoop
    by_cases hcond : curLen + s.length > chunkSize ∧ cur ≠ []
    · rw [if_pos hcond]
      rw [List.chain'_cons']
      refine ⟨fun τ hτ => ?_, chunkLoop_seed_chain chunkSize overlap allSents rest _ _
        (fun x hx => hsub x (List.mem_cons_of_mem s hx))⟩
      obtain ⟨t, ht⟩ := chunkLoop_head_extends chunkSize overlap rest _ _ τ hτ
      refine ⟨s, hsub s (List.mem_cons_self s rest), fun hot => ?_, fun hot => ?_⟩
      · rw [if_pos hot] at ht
        rw [← ht]
        rfl
      · rw [if_neg hot] at ht
        rw [← ht]
        rfl
    · rw [if_neg hcond]
      exact chunkLoop_seed_chain chunkSize overlap allSents rest _ _
        (fun x hx => hsub x (List.mem_cons_of_mem s hx))

/-- CLAIM C4 (corrected): whenever a chunk is closed, the next
accumulator is seeded with `overlapTokens` — the join of the last
`overlap` whitespace-separated *tokens* (words) of the just-closed
chunk, not its last `overlap` *characters* — followed by the sentence
that triggered the rollover: consecutive accumulators emitted by the
chunking loop are always linked by `seedRel`. -/
theorem c4_overlap_seeding (text : List Char) (chunkSize overlap : Nat) :
    List.Chain' (seedRel (sentencesOf text) overlap)
      (chunkLoop chunkSize overlap (sentencesOf text) [] 0) :=
  chunkLoop_seed_chain chunkSize overlap (sentencesOf text)
    (sentencesOf text) [] 0 (fun _ hx => hx)

/-- CLAIM C4 (counterexample): with `overlap = 5` the second chunk
begins with the 24-character join of the last 5 *tokens* of the first
chunk, not with its last 5 characters word-boundary-aligned (which would
be `"hhh."`): the claim's character-based description of the seed is
false on this input. -/
theorem c4_counterexample :
    chunk_text ("aaaa bbbb cccc dddd eeee ffff gggg hhh. iiiiii.").toList 40 5 =
      [("aaaa bbbb cccc dddd eeee ffff gggg hhh.").toList,
       ("dddd eeee ffff gggg hhh. iiiiii.").toList] ∧
    overlapTokens 5 [("aaaa bbbb cccc dddd eeee ffff gggg hhh.").toList] =
      ("dddd eeee ffff gggg hhh.").toList ∧
    specSeedFromChars 5 ("aaaa bbbb cccc dddd eeee ffff gggg hhh.").toList =
      ("hhh.").toList ∧
    ("dddd eeee ffff gggg hhh. iiiiii.").toList.take 4 ≠ ("hhh.").toList ∧
    ("dddd eeee ffff gggg hhh. iiiiii.").toList ≠
      stripChars (joinSp [specSeedFromChars 5
        ("aaaa bbbb cccc dddd eeee ffff gggg hhh.").toList, ("iiiiii.").toList]) := by
  refine ⟨by decide, by decide, by decide, by decide, by decide⟩

/-! ### Claim C2: relevance scoring -/

theorem bankerRound_ge (q : ℚ) : ⌊q⌋ ≤ bankerRound q := by
  unfold bankerRound
  split_ifs <;> omega

theorem bankerRound_le (q : ℚ) : bankerRound q ≤ ⌊q⌋ + 1 := by
  unfold bankerRound
  split_ifs <;> omega

theorem bankerRound_mono {q q' : ℚ} (h : q ≤ q') : bankerRound q ≤ bankerRound q' := by
  have hf : ⌊q⌋ ≤ ⌊q'⌋ := Int.floor_le_floor h
  rcases lt_or_eq_of_le hf with hlt | heq
  · calc bankerRound q ≤ ⌊q⌋ + 1 := bankerRound_le q
      _ ≤ ⌊q'⌋ := by omega
      _ ≤ bankerRound q' := bankerRound_ge q'
  · have hfr : q - (⌊q⌋ : ℚ) ≤ q' - (⌊q'⌋ : ℚ) := by
      rw [← heq]
      linarith
    unfold bankerRound
    rw [← heq]
    rw [← heq] at hfr
    split_ifs <;> first | omega | linarith

theorem pyRound3_mono {x y : ℚ} (h : x ≤ y) : pyRound3 x ≤ pyRound3 y := by
  unfold pyRound3
  have := bankerRound_mono (mul_le_mul_of_nonneg_right h (by norm_num : (0:ℚ) ≤ 1000))
  have hc : ((bankerRound (x * 1000) : ℚ)) ≤ (bankerRound (y * 1000) : ℚ) := by
    exact_mod_cast this
  linarith

theorem pyRound3_nonneg {x : ℚ} (h : 0 ≤ x) : 0 ≤ pyRound3 x := by
  unfold pyRound3
  have h1 : (0 : ℤ) ≤ ⌊x * 1000⌋ := Int.floor_nonneg.mpr (by linarith)
  have h2 : (0 : ℤ) ≤ bankerRound (x * 1000) := le_trans h1 (bankerRound_ge _)
  have : (0 : ℚ) ≤ (bankerRound (x * 1000) : ℚ) := by exact_mod_cast h2
  linarith

theorem pyRound3_le_one {x : ℚ} (h : x ≤ 1) : pyRound3 x ≤ 1 := by
  unfold pyRound3
  have hq : x * 1000 ≤ 1000 := by linarith
  have hb : bankerRound (x * 1000) ≤ 1000 := by
    by_cases h1000 : ⌊x * 1000⌋ = 1000
    · have hge : (1000 : ℚ) ≤ x * 1000 := by
        calc (1000 : ℚ) = ((1000 : ℤ) : ℚ) := by norm_num
          _ = (⌊x * 1000⌋ : ℚ) := by rw [h1000]
          _ ≤ x * 1000 := Int.floor_le _
      have heq : x * 1000 = 1000 := le_antisymm hq hge
      unfold bankerRound
      rw [h1000, heq]
      norm_num
    · have hle : ⌊x * 1000⌋ ≤ 1000 := by
        calc ⌊x * 1000⌋ ≤ ⌊(1000 : ℚ)⌋ := Int.floor_le_floor hq
          _ = 1000 := by norm_num
      have : ⌊x * 1000⌋ ≤ 999 := by omega
      have := bankerRound_le (x * 1000)
      omega
  have : (bankerRound (x * 1000) : ℚ) ≤ 1000 := by exact_mod_cast hb
  linarith

theorem sqDist_nonneg (u v : List ℚ) : 0 ≤ sqDist u v := by
  unfold sqDist
  apply List.sum_nonneg
  intro x hx
  obtain ⟨p, _, rfl⟩ := List.mem_map.mp hx
  positivity

theorem mem_insertByDist {x p : VecRec × ℚ} :
    ∀ {l : List (VecRec × ℚ)}, x ∈ insertByDist p l → x = p ∨ x ∈ l
  | [], h => by simpa [insertByDist] using h
  | q :: t, h => by
    unfold insertByDist at h
    split_ifs at h with hlt
    · rcases List.mem_cons.mp h with rfl | h2
      · exact Or.inl rfl
      · exact Or.inr h2
    · rcases List.mem_cons.mp h with rfl | h2
      · exact Or.inr (List.mem_cons_self _ _)
      · rcases mem_insertByDist h2 with h3 | h3
        · exact Or.inl h3
        · exact Or.inr (List.mem_cons_of_mem _ h3)

theorem mem_sortByDist {x : VecRec × ℚ} :
    ∀ {l : List (VecRec × ℚ)}, x ∈ sortByDist l → x ∈ l
  | [], h => by simp [sortByDist] at h
  | p :: t, h => by
    unfold sortByDist at h
    rcases mem_insertByDist h with rfl | h2
    · exact List.mem_cons_self _ _
    · exact List.mem_cons_of_mem _ (mem_sortByDist h2)

/-- A well-formed query result: its relevance is the 3-decimal rounding
of `score` at its own (non-negative) distance. -/
def goodQR (q : QRes) : Prop :=
  q.relevance = pyRound3 (score q.dist) ∧ 0 ≤ q.dist

/-- Every result list stored in the query cache is made of well-formed
results. -/
def stateGood (st : StoreState) : Prop :=
  ∀ e ∈ st.cache, ∀ q ∈ e.2, goodQR q

theorem mem_dictInsert [DecidableEq K] {x : K × V} {k : K} {v : V} :
    ∀ {d : List (K × V)}, x ∈ dictInsert k v d → x = (k, v) ∨ x ∈ d
  | [], h => by simpa [dictInsert] using h
  | p :: t, h => by
    unfold dictInsert at h
    split_ifs at h with hk
    · rcases List.mem_cons.mp h with rfl | h2
      · exact Or.inl rfl
      · exact Or.inr (List.mem_cons_of_mem _ h2)
    · rcases List.mem_cons.mp h with rfl | h2
      · exact Or.inr (List.mem_cons_self _ _)
      · rcases mem_dictInsert h2 with h3 | h3
        · exact Or.inl h3
        · exact Or.inr (List.mem_cons_of_mem _ h3)

theorem dictGet?_mem [DecidableEq K] {k : K} {v : V} {d : List (K × V)}
    (h : dictGet? k d = some v) : (k, v) ∈ d := by
  unfold dictGet? at h
  cases hfind : d.find? (fun p => p.1 = k) with
  | none => rw [hfind] at h; simp at h
  | some p =>
    rw [hfind] at h
    have hv : p.2 = v := by simpa using h
    have hp : p.1 = k := by simpa using List.find?_some hfind
    have hpm := List.mem_of_find?_eq_some hfind
    rw [← hp, ← hv]
    exact hpm

theorem getCachedResult_mem {key : List Char} {res : List QRes} {st : StoreState}
    (h : getCachedResult key st = some res) : (key, res) ∈ st.cache := by
  unfold getCachedResult at h
  split_ifs at h
  exact dictGet?_mem h

theorem get_collection_cache (ns : List Char) (st : StoreState) :
    (get_collection ns st).cache = st.cache := by
  unfold get_collection
  split_ifs <;> rfl

theorem mem_cacheResult {e : List Char × List QRes} {key : List Char}
    {res : List QRes} {st : StoreState}
    (h : e ∈ (cacheResult key res st).cache) : e = (key, res) ∨ e ∈ st.cache := by
  unfold cacheResult at h
  split_ifs at h with hen hfull
  · rcases mem_dictInsert h with h2 | h2
    · exact Or.inl h2
    · exact Or.inr (List.mem_of_mem_drop h2)
  · rcases mem_dictInsert h with h2 | h2
    · exact Or.inl h2
    · exact Or.inr h2
  · exact Or.inr h

/-- Behaviour of `query` on a cache hit. -/
theorem query_cacheHit (E : List Char → Except (List Char) (List ℚ))
    (ns qt : List Char) (k : Nat) (st : StoreState) (res : List QRes)
    (h : getCachedResult (cacheKey ns qt k) st = some res) :
    query E ns qt k true st = (res, st) := by
  unfold query
  rw [if_pos rfl, h]

/-- Behaviour of `query` when no cached entry applies and the embedding
(or index) step fails: the caught exception degrades to `[]`. -/
theorem query_embedError (E : List Char → Except (List Char) (List ℚ))
    (ns qt : List Char) (k : Nat) (uc : Bool) (st : StoreState) (e : List Char)
    (hmiss : (if uc = true then getCachedResult (cacheKey ns qt k) st else none) = none)
    (hE : E qt = .error e) :
    query E ns qt k uc st = ([], get_collection ns st) := by
  unfold query
  rw [hmiss, hE]

/-- Behaviour of `query` on a cache miss with a successful embedding. -/
theorem query_freshEq (E : List Char → Except (List Char) (List ℚ))
    (ns qt : List Char) (k : Nat) (uc : Bool) (st : StoreState) (qemb : List ℚ)
    (hmiss : (if uc = true then getCachedResult (cacheKey ns qt k) st else none) = none)
    (hE : E qt = .ok qemb) :
    query E ns qt k uc st =
      (freshOut (colRecs ns (get_collection ns st)) qemb k,
       if uc = true then
         cacheResult (cacheKey ns qt k)
           (freshOut (colRecs ns (get_collection ns st)) qemb k)
           (get_collection ns st)
       else get_collection ns st) := by
  unfold query
  rw [hmiss, hE]

theorem freshOut_goodQR (recs : List VecRec) (qemb : List ℚ) (k : Nat) :
    ∀ q ∈ freshOut recs qemb k, goodQR q := by
  intro q hq
  obtain ⟨p, hp, rfl⟩ := List.mem_map.mp hq
  have hp2 := mem_sortByDist (List.mem_of_mem_take hp)
  obtain ⟨r, _, rfl⟩ := List.mem_map.mp hp2
  exact ⟨rfl, sqDist_nonneg _ _⟩

/-- Fresh query results are well-formed, and every query preserves
well-formedness of the cache. -/
theorem query_goodQR (E : List Char → Except (List Char) (List ℚ))
    (ns qt : List Char) (k : Nat) (uc : Bool) (st : StoreState)
    (hst : stateGood st) :
    (∀ q ∈ (query E ns qt k uc st).1, goodQR q) ∧
    stateGood (query E ns qt k uc st).2 := by
  cases hcache : (if uc = true then getCachedResult (cacheKey ns qt k) st else none) with
  | some res =>
    have huc : uc = true := by
      by_cases h : uc = true
      · exact h
      · rw [if_neg h] at hcache; exact absurd hcache (by simp)
    have hsome : getCachedResult (cacheKey ns qt k) st = some res := by
      rw [if_pos huc] at hcache; exact hcache
    subst huc
    rw [query_cacheHit E ns qt k st res hsome]
    exact ⟨fun q hq => hst _ (getCachedResult_mem hsome) q hq, hst⟩
  | none =>
    cases hE : E qt with
    | error e =>
      rw [query_embedError E ns qt k uc st e hcache hE]
      refine ⟨by simp, fun e2 he2 q hq => hst e2 ?_ q hq⟩
      rw [get_collection_cache] at he2
      exact he2
    | ok qemb =>
      rw [query_freshEq E ns qt k uc st qemb hcache hE]
      refine ⟨freshOut_goodQR _ _ _, ?_⟩
      by_cases huc : uc = true
      · rw [if_pos huc]
        intro e2 he2 q hq
        rcases mem_cacheResult he2 with rfl | hmem
        · exact freshOut_goodQR _ _ _ q hq
        · rw [get_collection_cache] at hmem
          exact hst e2 hmem q hq
      · rw [if_neg huc]
        intro e2 he2 q hq
        rw [get_collection_cache] at he2
        exact hst e2 he2 q hq

/-- CLAIM C2 (corrected): the score function `1/(1+d)` is 1 at
distance 0, strictly decreasing, and in `(0, 1]` for `d ≥ 0`; but every
returned `QueryResult` carries `relevance_score` equal to
`round(1/(1+d), 3)` — the 3-decimal rounding of the score, not the score
itself — which is only weakly decreasing and lies in `[0, 1]` (it can
round down to exactly 0 for large distances). -/
theorem c2_relevance_scoring :
    score 0 = 1 ∧
    (∀ d1 d2 : ℚ, 0 ≤ d1 → d1 < d2 → score d2 < score d1) ∧
    (∀ d : ℚ, 0 ≤ d → 0 < score d ∧ score d ≤ 1) ∧
    (∀ d1 d2 : ℚ, 0 ≤ d1 → d1 ≤ d2 → pyRound3 (score d2) ≤ pyRound3 (score d1)) ∧
    (∀ d : ℚ, 0 ≤ d → 0 ≤ pyRound3 (score d) ∧ pyRound3 (score d) ≤ 1) ∧
    (∀ (E : List Char → Except (List Char) (List ℚ)) (ns qt : List Char)
        (k : Nat) (uc : Bool) (st : StoreState), stateGood st →
      (∀ q ∈ (query E ns qt k uc st).1, goodQR q) ∧
      stateGood (query E ns qt k uc st).2) := by
  have hpos : ∀ d : ℚ, 0 ≤ d → 0 < 1 + d := fun d hd => by linarith
  have hscore : ∀ d : ℚ, 0 ≤ d → 0 < score d ∧ score d ≤ 1 := by
    intro d hd
    constructor
    · exact div_pos one_pos (hpos d hd)
    · rw [score, div_le_one (hpos d hd)]
      linarith
  have hmono : ∀ d1 d2 : ℚ, 0 ≤ d1 → d1 < d2 → score d2 < score d1 := by
    intro d1 d2 h1 h2
    exact one_div_lt_one_div_of_lt (hpos d1 h1) (by linarith)
  refine ⟨by norm_num [score], hmono, hscore, ?_, ?_, query_goodQR⟩
  · intro d1 d2 h1 h2
    rcases eq_or_lt_of_le h2 with rfl | hlt
    · exact le_refl _
    · exact pyRound3_mono (le_of_lt (hmono d1 d2 h1 hlt))
  · intro d hd
    exact ⟨pyRound3_nonneg (le_of_lt (hscore d hd).1),
      pyRound3_le_one (hscore d hd).2⟩

/-- Witness for `c2_relevance_scoring` at concrete inputs. -/
theorem c2_relevance_scoring_witness :
    score (1 : ℚ) < score 0 ∧
    (0 < score (1 : ℚ) ∧ score (1 : ℚ) ≤ 1) ∧
    pyRound3 (score (1 : ℚ)) ≤ pyRound3 (score 0) ∧
    (0 ≤ pyRound3 (score (1 : ℚ)) ∧ pyRound3 (score (1 : ℚ)) ≤ 1) ∧
    (∀ q ∈ (query (fun _ => .ok []) [] [] 1 true (initState 100 true)).1, goodQR q) :=
  ⟨c2_relevance_scoring.2.1 0 1 (by norm_num) (by norm_num),
   c2_relevance_scoring.2.2.1 1 (by norm_num),
   c2_relevance_scoring.2.2.2.1 0 1 (by norm_num) (by norm_num),
   c2_relevance_scoring.2.2.2.2.1 1 (by norm_num),
   (c2_relevance_scoring.2.2.2.2.2 (fun _ => .ok []) [] [] 1 true
     (initState 100 true) (by intro e he; simp [initState] at he)).1⟩

/-- CLAIM C2 (counterexample): a stored vector at squared-L2 distance
1/2 from the query is returned with `relevance_score = 0.667`, which is
not `1/(1 + 1/2) = 2/3`: the returned score is the rounded value, so
"relevance_score equal to 1.0/(1.0 + distance)" is false. -/
theorem c2_counterexample :
    ((query (fun _ => .ok [0, 0]) ("A").toList ("q").toList 1 false
        ⟨[(("A").toList,
           [⟨("i").toList, ("t").toList, ⟨none, none⟩, [1/2, 1/2], ("A").toList⟩])],
          [("A").toList], [], true, 100⟩).1.map
      (fun r => (r.dist, r.relevance))) = [(1/2, 667/1000)] ∧
    (667 / 1000 : ℚ) ≠ 1 / (1 + 1 / 2) := by
  constructor
  · simp only [query, getCachedResult, get_collection, hasCol, colRecs, dictGet?,
      freshOut, sortByDist, insertByDist, sqDist, score, pyRound3, bankerRound,
      List.find?, List.map, List.zip, List.zipWith, List.take, List.sum]
    norm_num
  · norm_num

/-! ### Claim C7: cache eviction order -/

theorem dictInsert_of_not_mem [DecidableEq K] {k : K} (v : V) :
    ∀ {d : List (K × V)}, k ∉ d.map Prod.fst → dictInsert k v d = d ++ [(k, v)]
  | [], _ => rfl
  | p :: t, h => by
    unfold dictInsert
    have hne : ¬ p.1 = k := fun he => h (by simp [he])
    rw [if_neg hne, dictInsert_of_not_mem v
      (fun hm => h (List.mem_cons_of_mem _ hm))]
    rfl

/-- CLAIM C7 (confirmed): an insertion into a full, enabled cache whose
key is not already present evicts exactly the single oldest-inserted
entry (the head of the insertion-ordered dict) and keeps all the others;
and concretely, with capacity 2 and cached queries Q1, Q2, Q3 issued in
order against namespace `docs`, the entry for Q1 is evicted while those
for Q2 and Q3 remain. -/
theorem c7_cache_eviction :
    (∀ (key : List Char) (out : List QRes) (st : StoreState)
        (e : List Char × List QRes) (rest : List (List Char × List QRes)),
      st.cacheEnabled = true → st.cache = e :: rest →
      st.cacheMax ≤ st.cache.length → key ∉ rest.map Prod.fst →
      (cacheResult key out st).cache = rest ++ [(key, out)]) ∧
    (runOps (fun _ => [])
        [.queryOp ("docs").toList ("Q1").toList 5 true,
         .queryOp ("docs").toList ("Q2").toList 5 true,
         .queryOp ("docs").toList ("Q3").toList 5 true]
        (initState 2 true)).cache.map Prod.fst =
      [cacheKey ("docs").toList ("Q2").toList 5,
       cacheKey ("docs").toList ("Q3").toList 5] := by
  constructor
  · intro key out st e rest hen hcache hfull hnot
    unfold cacheResult
    rw [if_pos hen]
    show dictInsert key out
        (if st.cacheMax ≤ st.cache.length then st.cache.drop 1 else st.cache) = _
    rw [if_pos hfull, hcache]
    exact dictInsert_of_not_mem out hnot
  · decide

/-- Witness for the general part of `c7_cache_eviction` on a concrete
full cache. -/
theorem c7_cache_eviction_witness :
    (cacheResult ("k3").toList []
        ⟨[], [], [(("k1").toList, []), (("k2").toList, [])], true, 2⟩).cache =
      [(("k2").toList, [])] ++ [(("k3").toList, [])] :=
  c7_cache_eviction.1 ("k3").toList [] _ (("k1").toList, []) [(("k2").toList, [])]
    rfl rfl (by decide) (by decide)

/-! ### Claim C6: deterministic ids and idempotent upsert -/

theorem upsertRec_findSelf (r : VecRec) :
    ∀ m : List VecRec, (upsertRec r m).find? (fun x => x.id = r.id) = some r
  | [] => by simp [upsertRec, List.find?]
  | x :: t => by
    unfold upsertRec
    by_cases hx : x.id = r.id
    · rw [if_pos hx]
      exact List.find?_cons_of_pos _ (by simp)
    · rw [if_neg hx, List.find?_cons_of_neg _ (by simp [hx])]
      exact upsertRec_findSelf r t

theorem upsertRec_find_other {r : VecRec} {i : List Char} (hne : r.id ≠ i) :
    ∀ m : List VecRec,
      (upsertRec r m).find? (fun x => x.id = i) = m.find? (fun x => x.id = i)
  | [] => by simp [upsertRec, List.find?, hne]
  | x :: t => by
    unfold upsertRec
    by_cases hx : x.id = r.id
    · rw [if_pos hx, List.find?_cons_of_neg _ (by simp [hne]),
        List.find?_cons_of_neg _ (by simp [hx, hne])]
    · rw [if_neg hx]
      by_cases hxi : x.id = i
      · rw [List.find?_cons_of_pos _ (by simp [hxi]),
          List.find?_cons_of_pos _ (by simp [hxi])]
      · rw [List.find?_cons_of_neg _ (by simp [hxi]),
          List.find?_cons_of_neg _ (by simp [hxi])]
        exact upsertRec_find_other hne t

theorem upsertRec_of_found {r : VecRec} :
    ∀ {m : List VecRec}, m.find? (fun x => x.id = r.id) = some r → upsertRec r m = m
  | [], h => by simp [List.find?] at h
  | x :: t, h => by
    unfold upsertRec
    by_cases hx : x.id = r.id
    · rw [List.find?_cons_of_pos _ (by simp [hx])] at h
      have hxr : x = r := by simpa using h
      rw [if_pos hx, hxr]
    · rw [List.find?_cons_of_neg _ (by simp [hx])] at h
      rw [if_neg hx, upsertRec_of_found h]

theorem foldl_upsert_find_preserve :
    ∀ (rs m : List VecRec) (i : List Char), (∀ r ∈ rs, r.id ≠ i) →
    (rs.foldl (fun acc x => upsertRec x acc) m).find? (fun x => x.id = i) =
      m.find? (fun x => x.id = i)
  | [], m, i, _ => rfl
  | r :: t, m, i, h => by
    show (t.foldl _ (upsertRec r m)).find? _ = _
    rw [foldl_upsert_find_preserve t (upsertRec r m) i
      (fun r' hr' => h r' (List.mem_cons_of_mem _ hr'))]
    exact upsertRec_find_other (h r (List.mem_cons_self _ _)) m

theorem foldl_upsert_find :
    ∀ (rs m : List VecRec), (rs.map VecRec.id).Nodup →
    ∀ r ∈ rs, (rs.foldl (fun acc x => upsertRec x acc) m).find?
      (fun x => x.id = r.id) = some r
  | [], _, _, r, hr => absurd hr (List.not_mem_nil r)
  | r0 :: t, m, hnd, r, hr => by
    rw [List.map_cons, List.nodup_cons] at hnd
    show (t.foldl _ (upsertRec r0 m)).find? _ = some r
    rcases List.mem_cons.mp hr with rfl | hrt
    · rw [foldl_upsert_find_preserve t (upsertRec r m) r.id ?_]
      · exact upsertRec_findSelf r m
      · intro r' hr' he
        exact hnd.1 (he ▸ List.mem_map_of_mem VecRec.id hr')
    · exact foldl_upsert_find t (upsertRec r0 m) hnd.2 r hrt

theorem foldl_upsert_absorb :
    ∀ (rs L : List VecRec),
    (∀ r ∈ rs, L.find? (fun x => x.id = r.id) = some r) →
    rs.foldl (fun acc x => upsertRec x acc) L = L
  | [], _, _ => rfl
  | r :: t, L, h => by
    show t.foldl _ (upsertRec r L) = L
    rw [upsertRec_of_found (h r (List.mem_cons_self _ _))]
    exact foldl_upsert_absorb t L (fun r' hr' => h r' (List.mem_cons_of_mem _ hr'))

theorem setCol_handles (ns : List Char) (v : List VecRec) (st : StoreState) :
    (setCol ns v st).handles = st.handles := rfl

theorem setCol_cache (ns : List Char) (v : List VecRec) (st : StoreState) :
    (setCol ns v st).cache = st.cache := rfl

theorem get_collection_of_mem {ns : List Char} {st : StoreState}
    (h : ns ∈ st.handles) : get_collection ns st = st := by
  unfold get_collection
  rw [if_pos h]

theorem get_collection_handle (ns : List Char) (st : StoreState) :
    ns ∈ (get_collection ns st).handles := by
  unfold get_collection
  split_ifs with h1 h2
  · exact h1
  · exact List.mem_cons_self _ _
  · exact List.mem_cons_self _ _

theorem map_setEntry_of_none {ns : List Char} (v : List VecRec) :
    ∀ (l : List (List Char × List VecRec)), (∀ p ∈ l, p.1 ≠ ns) →
    l.map (fun p => if p.1 = ns then (ns, v) else p) = l
  | [], _ => rfl
  | p :: t, h => by
    rw [List.map_cons, if_neg (h p (List.mem_cons_self _ _)),
      map_setEntry_of_none v t (fun q hq => h q (List.mem_cons_of_mem _ hq))]

theorem setCol_of_not_hasCol {ns : List Char} {st : StoreState}
    (h : ¬ hasCol ns st = true) (v : List VecRec) : setCol ns v st = st := by
  unfold setCol
  have hall : ∀ p ∈ st.collections, p.1 ≠ ns := by
    intro p hp he
    apply h
    unfold hasCol
    exact List.any_eq_true.mpr ⟨p, hp, by simp [he]⟩
  rw [map_setEntry_of_none v st.collections hall]

theorem dictGet?_setEntry {ns : List Char} (v : List VecRec) :
    ∀ (l : List (List Char × List VecRec)), l.any (fun p => p.1 = ns) = true →
    dictGet? ns (l.map (fun p => if p.1 = ns then (ns, v) else p)) = some v
  | [], h => by simp at h
  | p :: t, h => by
    by_cases hp : p.1 = ns
    · rw [List.map_cons, if_pos hp]
      unfold dictGet?
      rw [List.find?_cons_of_pos _ (by simp)]
      rfl
    · rw [List.map_cons, if_neg hp]
      unfold dictGet?
      rw [List.find?_cons_of_neg _ (by simp [hp])]
      have ht : t.any (fun p => p.1 = ns) = true := by
        rcases List.any_eq_true.mp h with ⟨q, hq, hq2⟩
        rcases List.mem_cons.mp hq with rfl | hqt
        · exact absurd (by simpa using hq2) hp
        · exact List.any_eq_true.mpr ⟨q, hqt, hq2⟩
      exact dictGet?_setEntry v t ht

theorem colRecs_setCol_self {ns : List Char} {st : StoreState}
    (h : hasCol ns st = true) (v : List VecRec) :
    colRecs ns (setCol ns v st) = v := by
  unfold colRecs
  rw [show dictGet? ns (setCol ns v st).collections = some v from
    dictGet?_setEntry v st.collections h]
  rfl

theorem setCol_setCol (ns : List Char) (v : List VecRec) (st : StoreState) :
    setCol ns v (setCol ns v st) = setCol ns v st := by
  unfold setCol
  simp only [List.map_map]
  congr 1
  apply List.map_congr_left
  intro p _
  by_cases hp : p.1 = ns
  · simp [Function.comp, hp]
  · simp [Function.comp, hp]

/-- CLAIM C6 (corrected): when the caller supplies a *truthy*
(non-empty) doc_id, every chunk receives the deterministic id
`f"{doc_id}-{i}"`, and re-upserting the same chunk list (as produced by
a second identical ingestion) leaves the store state exactly as after
the first upsert — vectors are overwritten in place, never duplicated.
With an absent or empty-string doc_id the `or` fallback draws a fresh
uuid on every call, so re-ingestion uses different ids and duplicates
instead of overwriting (see the counterexample). -/
theorem c6_idempotent_ingestion :
    (∀ (text : List Char) (md : Meta) (freshId : List Char) (cs ov : Nat)
        (d : List Char), md.docId = some d → d ≠ [] →
      (build_doc_chunks text md freshId cs ov).map Chunk.id =
        (List.range (chunk_text text cs ov).length).map
          (fun i => d ++ '-' :: (toString i).toList)) ∧
    (∀ (E : List Char → List ℚ) (ns : List Char) (chunks : List Chunk)
        (st : StoreState), (chunks.map Chunk.id).Nodup →
      upsert_chunks E ns chunks (upsert_chunks E ns chunks st) =
        upsert_chunks E ns chunks st) := by
  constructor
  · intro text md freshId cs ov d hmd hd
    unfold build_doc_chunks
    rw [hmd]
    rw [show pyDocIdOr (some d) freshId = d from by
      show (if d = [] then freshId else d) = d
      rw [if_neg hd]]
    rw [List.map_map, show ((List.range (chunk_text text cs ov).length).map
        (fun i => d ++ '-' :: (toString i).toList)) =
      ((chunk_text text cs ov).enum.map Prod.fst).map
        (fun i => d ++ '-' :: (toString i).toList) from by
        rw [List.enum_map_fst]]
    rw [List.map_map]
    rfl
  · intro E ns chunks st hnd
    by_cases hcs : chunks = []
    · simp [upsert_chunks, hcs]
    · have hids : (chunks.map (chunkRec E ns)).map VecRec.id = chunks.map Chunk.id := by
        rw [List.map_map]
        rfl
      have h1 : upsert_chunks E ns chunks st =
          setCol ns ((chunks.map (chunkRec E ns)).foldl (fun acc r => upsertRec r acc)
            (colRecs ns (get_collection ns st))) (get_collection ns st) := by
        unfold upsert_chunks
        rw [if_neg hcs]
      rw [h1]
      unfold upsert_chunks
      rw [if_neg hcs]
      have hgc : get_collection ns (setCol ns
          ((chunks.map (chunkRec E ns)).foldl (fun acc r => upsertRec r acc)
            (colRecs ns (get_collection ns st))) (get_collection ns st)) =
          setCol ns ((chunks.map (chunkRec E ns)).foldl (fun acc r => upsertRec r acc)
            (colRecs ns (get_collection ns st))) (get_collection ns st) := by
        refine get_collection_of_mem ?_
        rw [setCol_handles]
        exact get_collection_handle ns st
      rw [hgc]
      by_cases hhc : hasCol ns (get_collection ns st) = true
      · rw [colRecs_setCol_self hhc]
        rw [foldl_upsert_absorb _ _
          (foldl_upsert_find _ _ (by rw [hids]; exact hnd))]
        exact setCol_setCol _ _ _
      · rw [setCol_of_not_hasCol hhc]
        exact setCol_of_not_hasCol hhc _

/-- Witness for `c6_idempotent_ingestion` at a concrete ingestion with
a truthy doc_id. -/
theorem c6_idempotent_ingestion_witness :
    (build_doc_chunks ("aaaaaaaaaaaaaaaaaaaaaaaaaaaaaaa.").toList
        ⟨some ("d").toList, none⟩ ("u").toList 900 150).map Chunk.id =
      (List.range
          (chunk_text ("aaaaaaaaaaaaaaaaaaaaaaaaaaaaaaa.").toList 900 150).length).map
        (fun i => ("d").toList ++ '-' :: (toString i).toList) ∧
    upsert_chunks (fun _ => []) ("ws").toList
        [⟨("d-0").toList, ("t").toList, ⟨some ("d").toList, some 0⟩⟩]
        (upsert_chunks (fun _ => []) ("ws").toList
          [⟨("d-0").toList, ("t").toList, ⟨some ("d").toList, some 0⟩⟩]
          (initState 100 true)) =
      upsert_chunks (fun _ => []) ("ws").toList
        [⟨("d-0").toList, ("t").toList, ⟨some ("d").toList, some 0⟩⟩]
        (initState 100 true) :=
  ⟨c6_idempotent_ingestion.1 ("aaaaaaaaaaaaaaaaaaaaaaaaaaaaaaa.").toList
      ⟨some ("d").toList, none⟩ ("u").toList 900 150 ("d").toList rfl (by decide),
   c6_idempotent_ingestion.2 (fun _ => []) ("ws").toList
    [⟨("d-0").toList, ("t").toList, ⟨some ("d").toList, some 0⟩⟩]
    (initState 100 true) (by decide)⟩

/-- CLAIM C6 (counterexample): with a *given* but empty doc_id (`""` is
falsy, so `metadata.get("doc_id") or str(uuid.uuid4())` draws a fresh
uuid on each call), ingesting the same text twice with the same
parameters produces chunk ids `"{uuid}-0"` — not `"{doc_id}-0"` = `"-0"`
— with a different uuid each time, and the second upsert adds a
duplicate vector (collection grows from 1 to 2 records) instead of
overwriting. -/
theorem c6_counterexample :
    (build_doc_chunks ("aaaaaaaaaaaaaaaaaaaaaaaaaaaaaaa.").toList
        ⟨some [], none⟩ ("u1").toList 900 150).map Chunk.id = [("u1-0").toList] ∧
    (build_doc_chunks ("aaaaaaaaaaaaaaaaaaaaaaaaaaaaaaa.").toList
        ⟨some [], none⟩ ("u2").toList 900 150).map Chunk.id = [("u2-0").toList] ∧
    [("u1-0").toList] ≠ [("-0").toList] ∧
    (colRecs ("n").toList
      (upsert_chunks (fun _ => []) ("n").toList
        (build_doc_chunks ("aaaaaaaaaaaaaaaaaaaaaaaaaaaaaaa.").toList
          ⟨some [], none⟩ ("u1").toList 900 150)
        (initState 100 true))).length = 1 ∧
    (colRecs ("n").toList
      (upsert_chunks (fun _ => []) ("n").toList
        (build_doc_chunks ("aaaaaaaaaaaaaaaaaaaaaaaaaaaaaaa.").toList
          ⟨some [], none⟩ ("u2").toList 900 150)
        (upsert_chunks (fun _ => []) ("n").toList
          (build_doc_chunks ("aaaaaaaaaaaaaaaaaaaaaaaaaaaaaaa.").toList
            ⟨some [], none⟩ ("u1").toList 900 150)
          (initState 100 true)))).length = 2 := by
  refine ⟨by decide, by decide, by decide, by decide, by decide⟩

/-! ### Claim C9: deletion exactness and frame -/

theorem colRecs_eq_of_collections {st1 st2 : StoreState} (ns : List Char)
    (h : st1.collections = st2.collections) : colRecs ns st1 = colRecs ns st2 := by
  unfold colRecs dictGet?
  rw [h]

theorem hasCol_eq_of_collections {st1 st2 : StoreState} (ns : List Char)
    (h : st1.collections = st2.collections) : hasCol ns st1 = hasCol ns st2 := by
  unfold hasCol
  rw [h]

theorem hasCol_of_dictGet? {ns : List Char} {st : StoreState} {recs : List VecRec}
    (h : dictGet? ns st.collections = some recs) : hasCol ns st = true := by
  unfold dictGet? at h
  cases hfind : st.collections.find? (fun p => p.1 = ns) with
  | none => rw [hfind] at h; simp at h
  | some p =>
    have hp : (p.1 = ns : Bool) = true := by simpa using List.find?_some hfind
    exact List.any_eq_true.mpr ⟨p, List.mem_of_find?_eq_some hfind, hp⟩

theorem get_collection_collections_of_hasCol {ns : List Char} {st : StoreState}
    (h : hasCol ns st = true) : (get_collection ns st).collections = st.collections := by
  unfold get_collection
  by_cases h1 : ns ∈ st.handles
  · rw [if_pos h1]
  · rw [if_neg h1, if_pos h]

theorem find?_setEntry_other {ns ns' : List Char} (v : List VecRec)
    (hne : ns' ≠ ns) :
    ∀ (l : List (List Char × List VecRec)),
    (l.map (fun p => if p.1 = ns then (ns, v) else p)).find? (fun p => p.1 = ns') =
      l.find? (fun p => p.1 = ns')
  | [] => rfl
  | p :: t => by
    rw [List.map_cons]
    by_cases hp : p.1 = ns
    · rw [if_pos hp, List.find?_cons_of_neg _ (by simp [Ne.symm hne]),
        List.find?_cons_of_neg _ (by simp [hp, Ne.symm hne])]
      exact find?_setEntry_other v hne t
    · by_cases hp' : p.1 = ns'
      · rw [if_neg hp, List.find?_cons_of_pos _ (by simp [hp']),
          List.find?_cons_of_pos _ (by simp [hp'])]
      · rw [if_neg hp, List.find?_cons_of_neg _ (by simp [hp']),
          List.find?_cons_of_neg _ (by simp [hp'])]
        exact find?_setEntry_other v hne t

theorem colRecs_setCol_other {ns ns' : List Char} (hne : ns' ≠ ns)
    (v : List VecRec) (st : StoreState) :
    colRecs ns' (setCol ns v st) = colRecs ns' st := by
  unfold colRecs dictGet?
  rw [show (setCol ns v st).collections =
    st.collections.map (fun p => if p.1 = ns then (ns, v) else p) from rfl]
  rw [find?_setEntry_other v hne st.collections]

theorem mem_docDelIds_iff {recs : List VecRec} {docId : List Char}
    (hnd : (recs.map VecRec.id).Nodup) {r : VecRec} (hr : r ∈ recs) :
    r.id ∈ docDelIds docId recs ↔ r.md.docId = some docId := by
  constructor
  · intro h
    obtain ⟨r', hr', hid⟩ := List.mem_map.mp h
    have hr'2 := List.mem_of_mem_filter hr'
    have hp := List.of_mem_filter hr'
    have heq : r' = r := List.inj_on_of_nodup_map hnd hr'2 hr hid
    rw [← heq]
    simpa using hp
  · intro h
    exact List.mem_map.mpr ⟨r, List.mem_filter.mpr ⟨hr, by simpa using h⟩, rfl⟩

/-- CLAIM C9 (confirmed): on a namespace whose collection stores `recs`
(with the ids pairwise distinct, as upserts keyed by id guarantee),
`delete_document` returns the number of records whose metadata `doc_id`
matches, leaves the namespace holding exactly the non-matching records
unchanged (hence any query's distances and scores over them are
unchanged), leaves every other namespace's records and the query cache
untouched, and with no matching record returns 0 and leaves the
collections exactly as they were. -/
theorem c9_delete_document (ns docId : List Char) (st : StoreState)
    (recs : List VecRec) (hcol : dictGet? ns st.collections = some recs)
    (hnd : (recs.map VecRec.id).Nodup) :
    (delete_document ns docId st).1 =
      (recs.filter (fun r => r.md.docId = some docId)).length ∧
    colRecs ns (delete_document ns docId st).2 =
      recs.filter (fun r => ¬ r.md.docId = some docId) ∧
    (∀ ns', ns' ≠ ns →
      colRecs ns' (delete_document ns docId st).2 = colRecs ns' st) ∧
    (delete_document ns docId st).2.cache = st.cache ∧
    (recs.filter (fun r => r.md.docId = some docId) = [] →
      (delete_document ns docId st).1 = 0 ∧
      (delete_document ns docId st).2.collections = st.collections) := by
  have hhc : hasCol ns st = true := hasCol_of_dictGet? hcol
  have hgcC : (get_collection ns st).collections = st.collections :=
    get_collection_collections_of_hasCol hhc
  have hrecs : colRecs ns (get_collection ns st) = recs := by
    rw [colRecs_eq_of_collections ns hgcC]
    unfold colRecs
    rw [hcol]
    rfl
  have hhcG : hasCol ns (get_collection ns st) = true := by
    rw [hasCol_eq_of_collections ns hgcC]
    exact hhc
  unfold delete_document
  rw [hrecs]
  by_cases hnil : docDelIds docId recs = []
  · rw [if_pos hnil]
    have hfil : recs.filter (fun r => r.md.docId = some docId) = [] := by
      unfold docDelIds at hnil
      exact List.map_eq_nil_iff.mp hnil
    have hall : ∀ r ∈ recs, ¬ r.md.docId = some docId := by
      intro r hr h
      have := List.filter_eq_nil_iff.mp hfil r hr
      simp [h] at this
    refine ⟨by rw [hfil]; rfl, ?_,
      fun ns' _ => colRecs_eq_of_collections ns' hgcC,
      get_collection_cache ns st, fun _ => ⟨rfl, hgcC⟩⟩
    show colRecs ns (get_collection ns st) = _
    rw [hrecs, List.filter_eq_self.mpr (fun r hr => by simpa using hall r hr)]
  · rw [if_neg hnil]
    have hfeq : recs.filter (fun r => decide (r.id ∉ docDelIds docId recs)) =
        recs.filter (fun r => ¬ r.md.docId = some docId) := by
      apply List.filter_congr
      intro r hr
      have hiff := @mem_docDelIds_iff recs docId hnd r hr
      by_cases hm : r.md.docId = some docId
      · simp [hm, hiff.mpr hm]
      · have : r.id ∉ docDelIds docId recs := fun hc => hm (hiff.mp hc)
        simp [hm, this]
    refine ⟨?_, ?_, ?_, by rw [setCol_cache, get_collection_cache], ?_⟩
    · show (docDelIds docId recs).length = _
      unfold docDelIds
      rw [List.length_map]
    · show colRecs ns (setCol ns _ (get_collection ns st)) = _
      rw [colRecs_setCol_self hhcG]
      exact hfeq
    · intro ns' hne
      show colRecs ns' (setCol ns _ (get_collection ns st)) = _
      rw [colRecs_setCol_other hne, colRecs_eq_of_collections ns' hgcC]
    · intro hfil
      exact absurd (by unfold docDelIds; rw [hfil]; rfl) hnil

/-- Witness for `c9_delete_document` on a concrete two-document
namespace. -/
theorem c9_delete_document_witness :
    (delete_document ("n").toList ("d1").toList
        ⟨[(("n").toList,
           [⟨("d1-0").toList, ("x").toList, ⟨some ("d1").toList, some 0⟩, [], ("n").toList⟩,
            ⟨("d2-0").toList, ("y").toList, ⟨some ("d2").toList, some 0⟩, [], ("n").toList⟩])],
          [("n").toList], [], true, 100⟩).1 =
      (([⟨("d1-0").toList, ("x").toList, ⟨some ("d1").toList, some 0⟩, [], ("n").toList⟩,
         ⟨("d2-0").toList, ("y").toList, ⟨some ("d2").toList, some 0⟩, [], ("n").toList⟩] :
          List VecRec).filter
        (fun r => r.md.docId = some ("d1").toList)).length :=
  (c9_delete_document ("n").toList ("d1").toList
    ⟨[(("n").toList,
       [⟨("d1-0").toList, ("x").toList, ⟨some ("d1").toList, some 0⟩, [], ("n").toList⟩,
        ⟨("d2-0").toList, ("y").toList, ⟨some ("d2").toList, some 0⟩, [], ("n").toList⟩])],
      [("n").toList], [], true, 100⟩
    [⟨("d1-0").toList, ("x").toList, ⟨some ("d1").toList, some 0⟩, [], ("n").toList⟩,
     ⟨("d2-0").toList, ("y").toList, ⟨some ("d2").toList, some 0⟩, [], ("n").toList⟩]
    (by decide) (by decide)).1

/-! ### Claim C8: query degradation -/

theorem find?_append_of_none {p : α → Bool} :
    ∀ {l₁ : List α} (l₂ : List α), l₁.find? p = none →
    (l₁ ++ l₂).find? p = l₂.find? p
  | [], _, _ => rfl
  | a :: t, l₂, h => by
    by_cases hpa : p a
    · rw [List.find?_cons_of_pos _ hpa] at h
      exact absurd h (by simp)
    · rw [List.find?_cons_of_neg _ hpa] at h
      rw [List.cons_append, List.find?_cons_of_neg _ hpa]
      exact find?_append_of_none l₂ h

theorem colRecs_get_collection (ns : List Char) (st : StoreState) :
    colRecs ns (get_collection ns st) = colRecs ns st := by
  by_cases h1 : ns ∈ st.handles
  · rw [get_collection_of_mem h1]
  · by_cases h2 : hasCol ns st = true
    · exact colRecs_eq_of_collections ns (get_collection_collections_of_hasCol h2)
    · have hnone : st.collections.find? (fun p => p.1 = ns) = none := by
        rw [List.find?_eq_none]
        intro p hp hpe
        exact h2 (List.any_eq_true.mpr ⟨p, hp, by simpa using hpe⟩)
      unfold get_collection
      rw [if_neg h1, if_neg h2]
      unfold colRecs dictGet?
      show (((st.collections ++ [(ns, [])]).find? _).map _).getD [] = _
      rw [find?_append_of_none _ hnone, hnone, List.find?_cons_of_pos _ (by simp)]
      rfl

/-- CLAIM C8 (corrected): whenever the cache does not supply a result
(cache bypassed via `use_cache=False`, cache disabled, or no entry for
the key), `query` degrades rather than failing: an embedding or index
error yields `[]`, and a namespace with no stored vectors yields `[]`.
The unconditional claim is false: a previously cached entry is returned
verbatim even after every vector of the namespace has been deleted
(`delete_document` does not invalidate the cache), and colliding
colon-joined keys can serve another namespace's cached results. -/
theorem c8_query_degradation (E : List Char → Except (List Char) (List ℚ))
    (ns qt : List Char) (k : Nat) (uc : Bool) (st : StoreState)
    (hmiss : (if uc = true then getCachedResult (cacheKey ns qt k) st else none) = none) :
    (∀ e, E qt = .error e → (query E ns qt k uc st).1 = []) ∧
    (colRecs ns st = [] → (query E ns qt k uc st).1 = []) := by
  constructor
  · intro e hE
    rw [query_embedError E ns qt k uc st e hmiss hE]
  · intro hcol
    cases hE : E qt with
    | error e => rw [query_embedError E ns qt k uc st e hmiss hE]
    | ok qemb =>
      rw [query_freshEq E ns qt k uc st qemb hmiss hE]
      show freshOut (colRecs ns (get_collection ns st)) qemb k = []
      rw [colRecs_get_collection, hcol]
      simp [freshOut, sortByDist]

/-- Witness for `c8_query_degradation`: a failing embedding and an
empty namespace, both with the cache bypassed, return `[]`. -/
theorem c8_query_degradation_witness :
    (query (fun _ => .error ("boom").toList) ("ghost").toList ("q").toList 5 false
      (initState 100 true)).1 = [] ∧
    (query (fun _ => .ok [0]) ("ghost").toList ("q").toList 5 false
      (initState 100 true)).1 = [] :=
  ⟨(c8_query_degradation (fun _ => .error ("boom").toList) ("ghost").toList
      ("q").toList 5 false (initState 100 true) rfl).1 ("boom").toList rfl,
   (c8_query_degradation (fun _ => .ok [0]) ("ghost").toList
      ("q").toList 5 false (initState 100 true) rfl).2 rfl⟩

/-- CLAIM C8 (counterexample): after ingesting a document into `A`,
querying it once (which caches the result), and deleting the document,
the namespace stores no vectors at all — yet the same query still
returns a non-empty (stale, cached) result list, refuting "querying a
namespace with no stored vectors returns the empty list". -/
theorem c8_counterexample :
    colRecs ("A").toList (runOps (fun _ => [0])
      [.upsert ("A").toList [⟨("d-0").toList, ("t").toList, ⟨some ("d").toList, some 0⟩⟩],
       .queryOp ("A").toList ("q").toList 1 true,
       .deleteDoc ("A").toList ("d").toList]
      (initState 100 true)) = [] ∧
    (query (fun _ => .ok [0]) ("A").toList ("q").toList 1 true
      (runOps (fun _ => [0])
        [.upsert ("A").toList [⟨("d-0").toList, ("t").toList, ⟨some ("d").toList, some 0⟩⟩],
         .queryOp ("A").toList ("q").toList 1 true,
         .deleteDoc ("A").toList ("d").toList]
        (initState 100 true))).1 ≠ [] := by
  refine ⟨by decide, by decide⟩

/-! ### Claim C10: delete_namespace never raises -/

/-- CLAIM C10 (corrected): `delete_namespace` always returns normally —
a failed underlying `delete_collection` is caught and the state is left
completely unchanged, making the failure invisible at the call site; on
success the collection and the cached handle are removed and nothing
else changes.  The claim's final clause is false: on the failure path
the cached collection handle is *not* dropped, because the `del` sits
after the raising call inside the `try` block. -/
theorem c10_delete_namespace (ns : List Char) (st : StoreState) :
    delete_namespace false ns st = st ∧
    (delete_namespace true ns st).collections =
      st.collections.filter (fun p => p.1 ≠ ns) ∧
    (delete_namespace true ns st).handles = st.handles.filter (fun h => h ≠ ns) ∧
    (delete_namespace true ns st).cache = st.cache := by
  refine ⟨by simp [delete_namespace], rfl, rfl, rfl⟩

/-- CLAIM C10 (counterexample): with a cached handle for `A` whose
backing collection is absent (so ChromaDB's `delete_collection`
raises), `delete_namespace` leaves the state — including the cached
handle — unchanged: the handle is not dropped. -/
theorem c10_counterexample :
    step (fun _ => []) ⟨[], [("A").toList], [], true, 100⟩ (.deleteNs ("A").toList) =
      ⟨[], [("A").toList], [], true, 100⟩ ∧
    ("A").toList ∈ (⟨[], [("A").toList], [], true, 100⟩ : StoreState).handles := by
  refine ⟨by decide, by decide⟩

/-! ### Claim C1: namespace isolation -/

/-- A namespace (or other string) containing no `':'`, the separator
`_get_cache_key` joins with. -/
def noColon (s : List Char) : Prop := ':' ∉ s

instance decNoColon (s : List Char) : Decidable (noColon s) :=
  inferInstanceAs (Decidable (':' ∉ s))

/-- Store invariant: every record of a collection was written under that
collection's namespace. -/
def colInv (st : StoreState) : Prop :=
  ∀ p ∈ st.collections, ∀ r ∈ p.2, r.writtenNs = p.1

/-- Cache invariant: every cached entry is keyed by some colon-free
namespace and holds only results written under that namespace. -/
def cacheInv (st : StoreState) : Prop :=
  ∀ e ∈ st.cache, ∃ ns qt k, noColon ns ∧ e.1 = cacheKey ns qt k ∧
    ∀ q ∈ e.2, q.writtenNs = ns

theorem mem_upsertRec {x r : VecRec} :
    ∀ {m : List VecRec}, x ∈ upsertRec r m → x = r ∨ x ∈ m
  | [], h => by
    simp [upsertRec] at h
    exact Or.inl h
  | y :: t, h => by
    unfold upsertRec at h
    split_ifs at h with hy
    · rcases List.mem_cons.mp h with rfl | h2
      · exact Or.inl rfl
      · exact Or.inr (List.mem_cons_of_mem _ h2)
    · rcases List.mem_cons.mp h with rfl | h2
      · exact Or.inr (List.mem_cons_self _ _)
      · rcases mem_upsertRec h2 with h3 | h3
        · exact Or.inl h3
        · exact Or.inr (List.mem_cons_of_mem _ h3)

theorem mem_foldl_upsert {x : VecRec} :
    ∀ (rs m : List VecRec),
    x ∈ rs.foldl (fun acc r => upsertRec r acc) m → x ∈ m ∨ x ∈ rs
  | [], _, h => Or.inl h
  | r :: t, m, h => by
    rcases mem_foldl_upsert t (upsertRec r m) h with h2 | h2
    · rcases mem_upsertRec h2 with h3 | h3
      · exact Or.inr (h3 ▸ List.mem_cons_self _ _)
      · exact Or.inl h3
    · exact Or.inr (List.mem_cons_of_mem _ h2)

theorem colon_append_inj : ∀ (a b : List Char) (u v : List Char), ':' ∉ a → ':' ∉ b →
    a ++ ':' :: u = b ++ ':' :: v → a = b
  | [], [], _, _, _, _, _ => rfl
  | [], c :: b', u, v, _, hb, h => by
    rw [List.nil_append, List.cons_append] at h
    injection h with h1 _
    exact absurd (by rw [← h1]; exact List.mem_cons_self _ _) hb
  | c :: a', [], u, v, ha, _, h => by
    rw [List.nil_append, List.cons_append] at h
    injection h with h1 _
    exact absurd (by rw [h1]; exact List.mem_cons_self _ _) ha
  | c :: a', c' :: b', u, v, ha, hb, h => by
    rw [List.cons_append, List.cons_append] at h
    injection h with h1 h2
    have ha' : ':' ∉ a' := fun hm => ha (List.mem_cons_of_mem _ hm)
    have hb' : ':' ∉ b' := fun hm => hb (List.mem_cons_of_mem _ hm)
    rw [h1, colon_append_inj a' b' u v ha' hb' h2]

theorem cacheKey_ns_inj {ns ns' qt qt' : List Char} {k k' : Nat}
    (h1 : noColon ns) (h2 : noColon ns')
    (h : cacheKey ns qt k = cacheKey ns' qt' k') : ns = ns' := by
  unfold cacheKey at h
  rw [List.append_assoc, List.append_assoc, List.cons_append, List.cons_append] at h
  exact colon_append_inj ns ns' _ _ h1 h2 h

theorem colInv_of_collections_eq {st1 st2 : StoreState}
    (h : st1.collections = st2.collections) (hc : colInv st2) : colInv st1 := by
  intro p hp
  rw [h] at hp
  exact hc p hp

theorem cacheInv_of_cache_eq {st1 st2 : StoreState}
    (h : st1.cache = st2.cache) (hc : cacheInv st2) : cacheInv st1 := by
  intro e he
  rw [h] at he
  exact hc e he

theorem colInv_get_collection {st : StoreState} (ns : List Char)
    (h : colInv st) : colInv (get_collection ns st) := by
  unfold get_collection
  split_ifs with h1 h2
  · exact h
  · exact h
  · intro p hp
    rcases List.mem_append.mp hp with hp2 | hp2
    · exact h p hp2
    · have hps : p = (ns, []) := List.mem_singleton.mp hp2
      subst hps
      intro r hr
      exact absurd hr (List.not_mem_nil r)

theorem colRecs_writtenNs {st : StoreState} (ns : List Char)
    (h : colInv st) : ∀ r ∈ colRecs ns st, r.writtenNs = ns := by
  intro r hr
  unfold colRecs at hr
  cases hd : dictGet? ns st.collections with
  | none => rw [hd] at hr; exact absurd hr (List.not_mem_nil r)
  | some recs =>
    rw [hd] at hr
    exact h (ns, recs) (dictGet?_mem hd) r hr

theorem freshOut_writtenNs {recs : List VecRec} {qemb : List ℚ} {k : Nat}
    {ns : List Char} (h : ∀ r ∈ recs, r.writtenNs = ns) :
    ∀ q ∈ freshOut recs qemb k, q.writtenNs = ns := by
  intro q hq
  obtain ⟨p, hp, rfl⟩ := List.mem_map.mp hq
  obtain ⟨r, hr, rfl⟩ := List.mem_map.mp (mem_sortByDist (List.mem_of_mem_take hp))
  exact h r hr

theorem cacheResult_collections (key : List Char) (res : List QRes)
    (st : StoreState) : (cacheResult key res st).collections = st.collections := by
  unfold cacheResult
  split_ifs <;> rfl

theorem upsert_chunks_cache (E : List Char → List ℚ) (ns : List Char)
    (cs : List Chunk) (st : StoreState) :
    (upsert_chunks E ns cs st).cache = st.cache := by
  unfold upsert_chunks
  split_ifs
  · rfl
  · rw [setCol_cache, get_collection_cache]

theorem delete_document_cache (ns docId : List Char) (st : StoreState) :
    (delete_document ns docId st).2.cache = st.cache := by
  unfold delete_document
  split_ifs
  · exact get_collection_cache ns st
  · show (setCol _ _ _).cache = _
    rw [setCol_cache, get_collection_cache]

theorem colInv_upsert {st : StoreState} (E : List Char → List ℚ)
    (ns : List Char) (cs : List Chunk) (h : colInv st) :
    colInv (upsert_chunks E ns cs st) := by
  unfold upsert_chunks
  split_ifs with hcs
  · exact h
  · have hG := colInv_get_collection ns h
    intro p hp
    have hp' : p ∈ (get_collection ns st).collections.map
        (fun q => if q.1 = ns then
          (ns, (cs.map (chunkRec E ns)).foldl (fun acc r => upsertRec r acc)
            (colRecs ns (get_collection ns st)))
          else q) := hp
    obtain ⟨p0, hp0, rfl⟩ := List.mem_map.mp hp'
    by_cases hpns : p0.1 = ns
    · rw [if_pos hpns]
      intro r hr
      rcases mem_foldl_upsert _ _ hr with h2 | h2
      · exact colRecs_writtenNs ns hG r h2
      · obtain ⟨c, _, rfl⟩ := List.mem_map.mp h2
        rfl
    · rw [if_neg hpns]
      exact hG p0 hp0

theorem colInv_delete_document {st : StoreState} (ns docId : List Char)
    (h : colInv st) : colInv (delete_document ns docId st).2 := by
  unfold delete_document
  split_ifs with hnil
  · exact colInv_get_collection ns h
  · have hG := colInv_get_collection ns h
    intro p hp
    have hp' : p ∈ (get_collection ns st).collections.map
        (fun q => if q.1 = ns then
          (ns, (colRecs ns (get_collection ns st)).filter
            (fun r => r.id ∉ docDelIds docId (colRecs ns (get_collection ns st))))
          else q) := hp
    obtain ⟨p0, hp0, rfl⟩ := List.mem_map.mp hp'
    by_cases hpns : p0.1 = ns
    · rw [if_pos hpns]
      intro r hr
      exact colRecs_writtenNs ns hG r (List.mem_of_mem_filter hr)
    · rw [if_neg hpns]
      exact hG p0 hp0

theorem colInv_delete_namespace {st : StoreState} (ok : Bool) (ns : List Char)
    (h : colInv st) : colInv (delete_namespace ok ns st) := by
  unfold delete_namespace
  split_ifs
  · intro p hp
    exact h p (List.mem_of_mem_filter hp)
  · exact h

theorem query_preserves_inv {E : List Char → Except (List Char) (List ℚ)}
    {ns qt : List Char} {k : Nat} {uc : Bool} {st : StoreState}
    (hns : noColon ns) (h1 : colInv st) (h2 : cacheInv st) :
    colInv (query E ns qt k uc st).2 ∧ cacheInv (query E ns qt k uc st).2 := by
  cases hcache : (if uc = true then getCachedResult (cacheKey ns qt k) st else none) with
  | some res =>
    have huc : uc = true := by
      by_cases h : uc = true
      · exact h
      · rw [if_neg h] at hcache; exact absurd hcache (by simp)
    have hsome : getCachedResult (cacheKey ns qt k) st = some res := by
      rw [if_pos huc] at hcache; exact hcache
    subst huc
    rw [query_cacheHit E ns qt k st res hsome]
    exact ⟨h1, h2⟩
  | none =>
    cases hE : E qt with
    | error e =>
      rw [query_embedError E ns qt k uc st e hcache hE]
      exact ⟨colInv_get_collection ns h1,
        cacheInv_of_cache_eq (get_collection_cache ns st) h2⟩
    | ok qemb =>
      rw [query_freshEq E ns qt k uc st qemb hcache hE]
      by_cases huc : uc = true
      · rw [if_pos huc]
        constructor
        · exact colInv_of_collections_eq (cacheResult_collections _ _ _)
            (colInv_get_collection ns h1)
        · intro e he
          rcases mem_cacheResult he with rfl | hmem
          · exact ⟨ns, qt, k, hns, rfl,
              freshOut_writtenNs (colRecs_writtenNs ns (colInv_get_collection ns h1))⟩
          · rw [get_collection_cache] at hmem
            exact h2 e hmem
      · rw [if_neg huc]
        exact ⟨colInv_get_collection ns h1,
          cacheInv_of_cache_eq (get_collection_cache ns st) h2⟩

theorem step_preserves_inv (E : List Char → List ℚ) (st : StoreState) (op : Op)
    (hns : noColon (opNamespace op)) (h : colInv st ∧ cacheInv st) :
    colInv (step E st op) ∧ cacheInv (step E st op) := by
  cases op with
  | upsert ns cs =>
    exact ⟨colInv_upsert E ns cs h.1,
      cacheInv_of_cache_eq (upsert_chunks_cache E ns cs st) h.2⟩
  | queryOp ns qt k uc => exact query_preserves_inv hns h.1 h.2
  | deleteDoc ns d =>
    exact ⟨colInv_delete_document ns d h.1,
      cacheInv_of_cache_eq (delete_document_cache ns d st) h.2⟩
  | deleteNs ns =>
    refine ⟨colInv_delete_namespace _ ns h.1, cacheInv_of_cache_eq ?_ h.2⟩
    show (delete_namespace (hasCol ns st) ns st).cache = st.cache
    unfold delete_namespace
    split_ifs <;> rfl

theorem runOps_preserves_inv (E : List Char → List ℚ) :
    ∀ (ops : List Op) (st : StoreState),
    (∀ op ∈ ops, noColon (opNamespace op)) → colInv st ∧ cacheInv st →
    colInv (runOps E ops st) ∧ cacheInv (runOps E ops st)
  | [], _, _, h => h
  | op :: t, st, hops, h =>
    runOps_preserves_inv E t (step E st op)
      (fun o ho => hops o (List.mem_cons_of_mem _ ho))
      (step_preserves_inv E st op (hops op (List.mem_cons_self _ _)) h)

/-- In an invariant-respecting state, every result returned by a query
under a colon-free namespace was written under that namespace. -/
theorem query_writtenNs {E : List Char → Except (List Char) (List ℚ)}
    {ns qt : List Char} {k : Nat} {uc : Bool} {st : StoreState}
    (h1 : colInv st) (h2 : cacheInv st) (hns : noColon ns) :
    ∀ q ∈ (query E ns qt k uc st).1, q.writtenNs = ns := by
  cases hcache : (if uc = true then getCachedResult (cacheKey ns qt k) st else none) with
  | some res =>
    have huc : uc = true := by
      by_cases h : uc = true
      · exact h
      · rw [if_neg h] at hcache; exact absurd hcache (by simp)
    have hsome : getCachedResult (cacheKey ns qt k) st = some res := by
      rw [if_pos huc] at hcache; exact hcache
    subst huc
    rw [query_cacheHit E ns qt k st res hsome]
    intro q hq
    obtain ⟨ns0, qt0, k0, hnc0, hkey, hw⟩ := h2 _ (getCachedResult_mem hsome)
    have hns0 : ns = ns0 := cacheKey_ns_inj hns hnc0 hkey
    rw [hns0]
    exact hw q hq
  | none =>
    cases hE : E qt with
    | error e =>
      rw [query_embedError E ns qt k uc st e hcache hE]
      intro q hq
      exact absurd hq (List.not_mem_nil q)
    | ok qemb =>
      rw [query_freshEq E ns qt k uc st qemb hcache hE]
      exact freshOut_writtenNs (colRecs_writtenNs ns (colInv_get_collection ns h1))

/-- CLAIM C1 (corrected): provided every namespace used in the trace —
and the queried namespace — contains no `':'`, a query under namespace
`A` never returns a result written under any other namespace `B`, even
through the query cache.  Without that proviso the claim is false: the
cache key is the colon-joined string `f"{namespace}:{query_text}:{k}"`,
so the pairs `("a:b", "q")` and `("a", "b:q")` collide and a query
scoped to `A = "a"` can be served results upserted under `B = "a:b"`
(see the counterexample). -/
theorem c1_namespace_isolation (E : List Char → List ℚ) (ops : List Op)
    (A B qt : List Char) (k : Nat) (uc : Bool) (m : Nat) (en : Bool)
    (hops : ∀ op ∈ ops, noColon (opNamespace op)) (hA : noColon A) (hAB : B ≠ A) :
    ∀ q ∈ (query (fun t => .ok (E t)) A qt k uc
        (runOps E ops (initState m en))).1,
      q.writtenNs ≠ B := by
  intro q hq hB
  have hInv := runOps_preserves_inv E ops (initState m en) hops
    ⟨fun p hp => absurd hp (List.not_mem_nil p),
     fun e he => absurd he (List.not_mem_nil e)⟩
  have hw := query_writtenNs hInv.1 hInv.2 hA q hq
  exact hAB (hB ▸ hw)

/-- Witness for `c1_namespace_isolation` on a one-upsert trace: the
single result the query returns is not from namespace `y`. -/
theorem c1_namespace_isolation_witness :
    (⟨("d-0").toList, ("t").toList, ⟨some ("d").toList, some 0⟩,
      sqDist [0] [0], pyRound3 (score (sqDist [0] [0])), ("x").toList⟩ :
        QRes).writtenNs ≠ ("y").toList :=
  c1_namespace_isolation (fun _ => [0])
    [.upsert ("x").toList [⟨("d-0").toList, ("t").toList, ⟨some ("d").toList, some 0⟩⟩]]
    ("x").toList ("y").toList ("q").toList 1 false 100 true
    (by decide) (by decide) (by decide)
    ⟨("d-0").toList, ("t").toList, ⟨some ("d").toList, some 0⟩,
      sqDist [0] [0], pyRound3 (score (sqDist [0] [0])), ("x").toList⟩
    (List.mem_cons_self _ _)

/-- CLAIM C1 (counterexample): upsert a chunk under namespace `"a:b"`
and query it once (caching the result under the md5-input string
`"a:b:q:1"`); a query scoped to the distinct namespace `"a"` with query
text `"b:q"` builds the same cache key and is served the cached result —
a chunk whose metadata was written by an upsert under `"a:b"`. -/
theorem c1_counterexample :
    (query (fun _ => .ok [0]) ("a").toList ("b:q").toList 1 true
      (runOps (fun _ => [0])
        [.upsert ("a:b").toList
          [⟨("d-0").toList, ("t").toList, ⟨some ("d").toList, some 0⟩⟩],
         .queryOp ("a:b").toList ("q").toList 1 true]
        (initState 100 true))).1.map QRes.writtenNs = [("a:b").toList] ∧
    ("a:b").toList ≠ ("a").toList := by
  refine ⟨by decide, by decide⟩

end AgentKit
